import Mathlib

/-!
Shallow embedding of the `logan_kmer_spectrum` k-mer abundance histogram
program (src/main.rs) and verification of its specification claims.

Bytes are modelled as `Nat` values (0..255); machine `u64` arithmetic is
modelled with explicit `% 2 ^ 64`; the `u32` abundance parse is modelled by
rejecting values of `2 ^ 32` or more.  Headers are modelled as ASCII byte
lists (for ASCII input the `regex` crate's `\d` class coincides with the
ASCII digits 48..57 used here).
-/

/-- Embedding of `nucleotide_to_bits` (main.rs lines 32-40): the 2-bit code
of a nucleotide byte, `none` on any byte other than A/C/G/T (either case). -/
def nucleotide_to_bits (n : Nat) : Option Nat :=
  match n with
  | 65 | 97 => some 0
  | 67 | 99 => some 1
  | 71 | 103 => some 2
  | 84 | 116 => some 3
  | _ => none

/-- Embedding of `complement_to_bits` (main.rs lines 43-51): the 2-bit code
of the complementary nucleotide, `none` on non-ACGT bytes. -/
def complement_to_bits (n : Nat) : Option Nat :=
  match n with
  | 65 | 97 => some 3
  | 67 | 99 => some 2
  | 71 | 103 => some 1
  | 84 | 116 => some 0
  | _ => none

/-- The common shape of the encoding loops of `encode_kmer` and
`encode_reverse_complement` (main.rs lines 59-66 and 76-83): fold
`encoded = (encoded << 2) | bits` (64-bit arithmetic) over a list of bytes,
failing on the first byte the codec rejects. -/
def packLoop (codec : Nat → Option Nat) : List Nat → Nat → Option Nat
  | [], acc => some acc
  | b :: rest, acc =>
    match codec b with
    | some bits => packLoop codec rest (((acc <<< 2) % 2 ^ 64) ||| bits)
    | none => none

/-- Embedding of `encode_kmer` (main.rs lines 54-68): guard `k > 32` and
`seq.len() < k`, then pack the 2-bit codes of the first `k` bytes,
most-significant base first. -/
def encode_kmer (seq : List Nat) (k : Nat) : Option Nat :=
  if k > 32 ∨ seq.length < k then none
  else packLoop nucleotide_to_bits (seq.take k) 0

/-- Embedding of `encode_reverse_complement` (main.rs lines 71-85): same
guards, then pack the complement codes iterating the window indices in
reverse (`for i in (0..k).rev()`), i.e. folding over the reversed window. -/
def encode_reverse_complement (seq : List Nat) (k : Nat) : Option Nat :=
  if k > 32 ∨ seq.length < k then none
  else packLoop complement_to_bits (seq.take k).reverse 0

/-- The reverse-complement encoding in the words of the specification:
complement each base's 2-bit code, then pack starting from the last base of
the window as the most-significant bits. -/
def rcSpecVal (window : List Nat) : Nat :=
  window.reverse.foldl (fun acc b => acc * 4 + (complement_to_bits b).getD 0) 0

/-- The loop body of `generate_encoded_kmers` (main.rs lines 94-106) for the
window starting at offset `i`: encode forward; if canonical also encode the
reverse complement and keep the unsigned minimum; `none` when the window is
dropped. -/
def windowEmit (seq : List Nat) (k : Nat) (canonical : Bool) (i : Nat) : Option Nat :=
  match encode_kmer ((seq.drop i).take k) k with
  | some encoded =>
    if canonical then
      match encode_reverse_complement ((seq.drop i).take k) k with
      | some rev_comp => some (min encoded rev_comp)
      | none => none
    else some encoded
  | none => none

/-- Embedding of `generate_encoded_kmers` (main.rs lines 88-108): return `[]`
when the sequence is shorter than `k`, otherwise emit one optional k-mer per
starting offset `0..=seq.len()-k`, left to right, dropping `none` windows. -/
def generate_encoded_kmers (seq : List Nat) (k : Nat) (canonical : Bool) : List Nat :=
  if seq.length < k then []
  else (List.range (seq.length - k + 1)).filterMap (windowEmit seq k canonical)

/-- ASCII decimal digit test (the `\d` class of the pattern `ka:f:(\d+)`
restricted to ASCII input). -/
def isDigit (b : Nat) : Bool := decide (48 ≤ b ∧ b ≤ 57)

/-- Maximal leading run of digit bytes (the greedy `\d+` capture). -/
def digitRun : List Nat → List Nat
  | [] => []
  | b :: rest => if isDigit b then b :: digitRun rest else []

/-- Numeric value of a decimal digit-byte string. -/
def digitsToNat (ds : List Nat) : Nat :=
  ds.foldl (fun acc d => acc * 10 + (d - 48)) 0

/-- Model of Rust `str::parse::<u32>()` on a captured digit string: fails on
the empty string and on values that do not fit in 32 bits, otherwise returns
the numeric value. -/
def parseU32 (ds : List Nat) : Option Nat :=
  if ds.isEmpty then none
  else if digitsToNat ds < 2 ^ 32 then some (digitsToNat ds) else none

/-- Does the list start with the literal bytes `ka:f:`? -/
def kafPrefixAt (l : List Nat) : Bool :=
  match l with
  | 107 :: 97 :: 58 :: 102 :: 58 :: _ => true
  | _ => false

/-- Does the list start with a digit byte? -/
def leadingDigit (l : List Nat) : Bool :=
  match l with
  | d :: _ => isDigit d
  | [] => false

/-- The pattern `ka:f:(\d+)` matches at the head of `l`. -/
def tagAt (l : List Nat) : Bool := kafPrefixAt l && leadingDigit (l.drop 5)

/-- Leftmost match of `ka:f:(\d+)` in the header, returning the greedy digit
capture (the semantics of `Regex::captures` in `extract_abundance`,
main.rs lines 26-29). -/
def findTag : List Nat → Option (List Nat)
  | [] => none
  | b :: rest =>
    if tagAt (b :: rest) then some (digitRun ((b :: rest).drop 5))
    else findTag rest

/-- Embedding of `extract_abundance` (main.rs lines 26-29): parse the digit
capture of the leftmost `ka:f:(\d+)` match as a `u32`; `none` when there is
no match or the parse fails. -/
def extract_abundance (header : List Nat) : Option Nat :=
  match findTag header with
  | some ds => parseU32 ds
  | none => none

/-- Does the header contain the literal byte substring `ka:f:` anywhere? -/
def containsKaf : List Nat → Bool
  | [] => false
  | b :: rest => kafPrefixAt (b :: rest) || containsKaf rest

/-- Does the header contain, anywhere, a tag `ka:f:<digits>` whose greedy
digit capture parses as a `u32`?  (The predicate of claim C5.) -/
def anyParsableTag : List Nat → Bool
  | [] => false
  | b :: rest =>
    (tagAt (b :: rest) && (parseU32 (digitRun ((b :: rest).drop 5))).isSome)
      || anyParsableTag rest

/-- A FASTA record as exposed by the excluded reader: identifier bytes,
optional description bytes, and the nucleotide byte sequence. -/
structure SeqRecord where
  ident : List Nat
  desc : Option (List Nat)
  seq : List Nat

/-- The header handed to `extract_abundance` (main.rs lines 137-141):
identifier, one space (byte 32), then the description or the empty string. -/
def headerOf (r : SeqRecord) : List Nat :=
  r.ident ++ 32 :: r.desc.getD []

/-- Embedding of `*kmer_counts.entry(kmer).or_insert(0) += abundance as u64`
(main.rs line 147) on an insertion-ordered association list with `u64`
values: create the entry with value `weight` if absent, else add `weight`
to it, wrapping at `2 ^ 64`. -/
def addKmer (table : List (Nat × Nat)) (kmer : Nat) (weight : Nat) :
    List (Nat × Nat) :=
  match table with
  | [] => [(kmer, weight % 2 ^ 64)]
  | (key, v) :: rest =>
    if key = kmer then (key, (v + weight) % 2 ^ 64) :: rest
    else (key, v) :: addKmer rest kmer weight

/-- Processing of one record in the main loop (main.rs lines 135-150): if the
header yields an abundance, add it to every generated k-mer of the record,
in generation order; otherwise leave the Count Table unchanged. -/
def processRecord (k : Nat) (canonical : Bool) (table : List (Nat × Nat))
    (r : SeqRecord) : List (Nat × Nat) :=
  match extract_abundance (headerOf r) with
  | some abundance =>
    (generate_encoded_kmers r.seq k canonical).foldl
      (fun t kmer => addKmer t kmer abundance) table
  | none => table

/-- The final Count Table of a run over a record list. -/
def buildTable (records : List SeqRecord) (k : Nat) (canonical : Bool) :
    List (Nat × Nat) :=
  records.foldl (processRecord k canonical) []

/-- Embedding of `*histogram.entry(count).or_insert(0) += 1`
(main.rs line 155) with `u64` counters. -/
def bumpHist : List (Nat × Nat) → Nat → List (Nat × Nat)
  | [], v => [(v, 1)]
  | (key, c) :: rest, v =>
    if key = v then (key, (c + 1) % 2 ^ 64) :: rest
    else (key, c) :: bumpHist rest v

/-- The histogram of a list of accumulated values (main.rs lines 153-156). -/
def histogramOf (vals : List Nat) : List (Nat × Nat) :=
  vals.foldl bumpHist []

/-- Sum over a histogram of `frequency * count`. -/
def histFreqMass (h : List (Nat × Nat)) : Nat :=
  (h.map (fun p => p.1 * p.2)).sum

/-- Sum over a histogram of `count`. -/
def histCountMass (h : List (Nat × Nat)) : Nat :=
  (h.map Prod.snd).sum

/-- The order `Vec::sort` uses on the `(frequency, count)` pairs
(main.rs line 160): lexicographic on the pair. -/
def lexLe (p q : Nat × Nat) : Prop :=
  p.1 < q.1 ∨ (p.1 = q.1 ∧ p.2 ≤ q.2)

instance lexLe_decidable : DecidableRel lexLe := fun p q =>
  inferInstanceAs (Decidable (p.1 < q.1 ∨ (p.1 = q.1 ∧ p.2 ≤ q.2)))

instance lexLe_total : IsTotal (Nat × Nat) lexLe :=
  ⟨by intro a b; unfold lexLe; omega⟩

instance lexLe_trans : IsTrans (Nat × Nat) lexLe :=
  ⟨by intro a b c hab hbc; unfold lexLe at hab hbc ⊢; omega⟩

/-- The rows the print loop emits (main.rs lines 158-173): the sorted
histogram, truncated by `break` at the first frequency exceeding the
configured limit, or whole when no limit is configured. -/
def renderRows (hist : List (Nat × Nat)) (limit : Option Nat) :
    List (Nat × Nat) :=
  match limit with
  | some l => (List.insertionSort lexLe hist).takeWhile fun p => decide (p.1 ≤ l)
  | none => List.insertionSort lexLe hist

/-- The full stdout of a run after the configuration check: the fixed header
line then one `frequency<TAB>count` line per rendered row
(main.rs lines 163-173). -/
def runPipeline (records : List SeqRecord) (k : Nat) (canonical : Bool)
    (limit : Option Nat) : List String :=
  let table := buildTable records k canonical
  let rows := renderRows (histogramOf (table.map Prod.snd)) limit
  "K-mer Frequency\tCount" ::
    rows.map fun p => Nat.repr p.1 ++ "\t" ++ Nat.repr p.2

/-- The fatal configuration message of main.rs line 125. -/
def kSizeError : String :=
  "Error: k-mer size cannot exceed 32 for the 64-bit representation"

/-- Embedding of `main` after argument parsing (main.rs lines 121-176):
reject `k > 32` with a fatal error before any record is processed (no output
lines), otherwise run the pipeline and print. -/
def mainModel (records : List SeqRecord) (k : Nat) (canonical : Bool)
    (limit : Option Nat) : Except String (List String) :=
  if k > 32 then Except.error kSizeError
  else Except.ok (runPipeline records k canonical limit)

/-- Lookup in an association-list table (the mapping view of a `HashMap`). -/
def lookupVal (t : List (Nat × Nat)) (key : Nat) : Option Nat :=
  match t with
  | [] => none
  | (k2, v) :: rest => if k2 = key then some v else lookupVal rest key

/-- The example record of the specification: header `read1 ka:f:2`,
sequence `ACGTACGT`. -/
def recExample : SeqRecord :=
  ⟨[114, 101, 97, 100, 49], some [107, 97, 58, 102, 58, 50],
   [65, 67, 71, 84, 65, 67, 71, 84]⟩

/-- A record whose header `read1 abc` contains no `ka:f:` tag. -/
def recNoTag : SeqRecord :=
  ⟨[114, 101, 97, 100, 49], some [97, 98, 99],
   [65, 67, 71, 84, 65, 67, 71, 84]⟩

/-- A record with the maximal parsable abundance `ka:f:4294967295` and
sequence `ACGT`. -/
def recBig : SeqRecord :=
  ⟨[114], some [107, 97, 58, 102, 58, 52, 50, 57, 52, 57, 54, 55, 50, 57, 53],
   [65, 67, 71, 84]⟩

/-- Header bytes of `ka:f:4294967296 ka:f:5`: a first tag whose digits
overflow `u32` followed by a second, parsable tag. -/
def hdrTwoTags : List Nat :=
  [107, 97, 58, 102, 58, 52, 50, 57, 52, 57, 54, 55, 50, 57, 54,
   32, 107, 97, 58, 102, 58, 53]

/-! ## Helper lemmas -/

lemma nucleotide_to_bits_lt (b v : Nat) (h : nucleotide_to_bits b = some v) :
    v < 4 := by
  unfold nucleotide_to_bits at h
  split at h <;> simp_all <;> omega

lemma complement_to_bits_lt (b v : Nat) (h : complement_to_bits b = some v) :
    v < 4 := by
  unfold complement_to_bits at h
  split at h <;> simp_all <;> omega

lemma complement_isSome_eq (b : Nat) :
    (complement_to_bits b).isSome = (nucleotide_to_bits b).isSome := by
  unfold complement_to_bits nucleotide_to_bits
  split <;> rfl

lemma four_mul_or_eq_add (a b : Nat) (hb : b < 4) : (4 * a) ||| b = 4 * a + b := by
  have ha : 4 * a = Nat.bit false (Nat.bit false a) := by
    simp [Nat.bit_val]
    ring
  interval_cases b
  · simp
  · have h1 : (1 : Nat) = Nat.bit true 0 := by simp [Nat.bit_val]
    rw [ha, h1, Nat.lor_bit]
    simp [Nat.bit_val]
  · have h2 : (2 : Nat) = Nat.bit false (Nat.bit true 0) := by simp [Nat.bit_val]
    rw [ha, h2, Nat.lor_bit, Nat.lor_bit]
    simp [Nat.bit_val]
    ring
  · have h3 : (3 : Nat) = Nat.bit true (Nat.bit true 0) := by simp [Nat.bit_val]
    rw [ha, h3, Nat.lor_bit, Nat.lor_bit]
    simp [Nat.bit_val]
    ring

lemma packLoop_eq_fold (codec : Nat → Option Nat)
    (hcodec : ∀ b v, codec b = some v → v < 4)
    (l : List Nat) :
    ∀ acc : Nat,
      (∀ b ∈ l, (codec b).isSome = true) →
      (acc + 1) * 4 ^ l.length ≤ 2 ^ 64 →
      packLoop codec l acc =
        some (l.foldl (fun a b => a * 4 + (codec b).getD 0) acc) := by
  induction l with
  | nil => intro acc _ _; rfl
  | cons b rest ih =>
    intro acc hval hbound
    obtain ⟨v, hv⟩ :=
      Option.isSome_iff_exists.mp (hval b (List.mem_cons_self b rest))
    have hv4 : v < 4 := hcodec b v hv
    have hpow : (4 : Nat) ≤ 4 ^ (rest.length + 1) :=
      Nat.le_self_pow (by omega) 4
    have hmul : (acc + 1) * 4 ≤ (acc + 1) * 4 ^ (rest.length + 1) :=
      Nat.mul_le_mul_left _ hpow
    have hlen : (b :: rest).length = rest.length + 1 := rfl
    rw [hlen] at hbound
    have hacc4 : acc * 4 < 2 ^ 64 := by omega
    have hsh : acc <<< 2 = acc * 4 := by
      rw [Nat.shiftLeft_eq]
    have hshift : (acc <<< 2) % 2 ^ 64 = acc * 4 := by
      rw [hsh, Nat.mod_eq_of_lt hacc4]
    have hor : acc * 4 ||| v = acc * 4 + v := by
      rw [Nat.mul_comm acc 4]
      exact four_mul_or_eq_add acc v hv4
    have hstep : packLoop codec (b :: rest) acc =
        packLoop codec rest (((acc <<< 2) % 2 ^ 64) ||| v) := by
      rw [packLoop, hv]
    rw [hstep, hshift, hor]
    have hbound2 : (acc * 4 + v + 1) * 4 ^ rest.length ≤ 2 ^ 64 := by
      have h1 : acc * 4 + v + 1 ≤ (acc + 1) * 4 := by omega
      calc (acc * 4 + v + 1) * 4 ^ rest.length
          ≤ (acc + 1) * 4 * 4 ^ rest.length :=
            Nat.mul_le_mul_right _ h1
        _ = (acc + 1) * 4 ^ (rest.length + 1) := by ring
        _ ≤ 2 ^ 64 := hbound
    rw [ih (acc * 4 + v) (fun b2 hb2 => hval b2 (List.mem_cons_of_mem b hb2))
      hbound2]
    simp [hv]

lemma packLoop_none (codec : Nat → Option Nat) (l : List Nat) :
    ∀ acc : Nat, (∃ b ∈ l, codec b = none) → packLoop codec l acc = none := by
  induction l with
  | nil => intro acc h; simp at h
  | cons b rest ih =>
    intro acc h
    obtain ⟨b2, hb2, hnone⟩ := h
    cases hc : codec b with
    | none => simp [packLoop, hc]
    | some v =>
      rcases List.mem_cons.mp hb2 with rfl | hmem
      · rw [hc] at hnone
        exact absurd hnone (by simp)
      · simp only [packLoop, hc]
        exact ih _ ⟨b2, hmem, hnone⟩

lemma pow_four_le (k : Nat) (h : k ≤ 32) : (4 : Nat) ^ k ≤ 2 ^ 64 := by
  calc (4 : Nat) ^ k ≤ 4 ^ 32 := Nat.pow_le_pow_right (by norm_num) h
    _ = 2 ^ 64 := by norm_num

lemma packLoop_isSome_iff (codec : Nat → Option Nat)
    (hcodec : ∀ b v, codec b = some v → v < 4) (l : List Nat)
    (hbound : 4 ^ l.length ≤ 2 ^ 64) :
    (packLoop codec l 0).isSome = true ↔ ∀ b ∈ l, (codec b).isSome = true := by
  constructor
  · intro hs
    by_contra hnot
    push_neg at hnot
    obtain ⟨b, hb, hbad⟩ := hnot
    have hbn : codec b = none := by
      cases hcb : codec b with
      | none => rfl
      | some v => rw [hcb] at hbad; simp at hbad
    rw [packLoop_none codec l 0 ⟨b, hb, hbn⟩] at hs
    simp at hs
  · intro hv
    rw [packLoop_eq_fold codec hcodec l 0 hv (by simpa using hbound)]
    rfl

lemma take_self_of_length_eq (w : List Nat) (k : Nat) (hlen : w.length = k) :
    w.take k = w := by
  rw [← hlen]
  exact List.take_length w

lemma encode_kmer_isSome_iff (w : List Nat) (k : Nat) (h2 : k ≤ 32)
    (hlen : w.length = k) :
    (encode_kmer w k).isSome = true ↔
      ∀ b ∈ w, (nucleotide_to_bits b).isSome = true := by
  unfold encode_kmer
  rw [if_neg (by omega), take_self_of_length_eq w k hlen]
  exact packLoop_isSome_iff nucleotide_to_bits nucleotide_to_bits_lt w
    (by rw [hlen]; exact pow_four_le k h2)

lemma encode_rc_isSome_iff (w : List Nat) (k : Nat) (h2 : k ≤ 32)
    (hlen : w.length = k) :
    (encode_reverse_complement w k).isSome = true ↔
      ∀ b ∈ w, (complement_to_bits b).isSome = true := by
  unfold encode_reverse_complement
  rw [if_neg (by omega), take_self_of_length_eq w k hlen]
  rw [packLoop_isSome_iff complement_to_bits complement_to_bits_lt w.reverse
    (by rw [List.length_reverse, hlen]; exact pow_four_le k h2)]
  constructor
  · intro h b hb
    exact h b (List.mem_reverse.mpr hb)
  · intro h b hb
    exact h b (List.mem_reverse.mp hb)

lemma encode_kmer_eq_fold (w : List Nat) (k : Nat) (h2 : k ≤ 32)
    (hlen : w.length = k)
    (hval : ∀ b ∈ w, (nucleotide_to_bits b).isSome = true) :
    encode_kmer w k =
      some (w.foldl (fun a b => a * 4 + (nucleotide_to_bits b).getD 0) 0) := by
  unfold encode_kmer
  rw [if_neg (by omega), take_self_of_length_eq w k hlen]
  exact packLoop_eq_fold nucleotide_to_bits nucleotide_to_bits_lt w 0 hval
    (by simpa [hlen] using pow_four_le k h2)

lemma encode_rc_eq_spec (w : List Nat) (k : Nat) (h2 : k ≤ 32)
    (hlen : w.length = k)
    (hval : ∀ b ∈ w, (complement_to_bits b).isSome = true) :
    encode_reverse_complement w k = some (rcSpecVal w) := by
  unfold encode_reverse_complement
  rw [if_neg (by omega), take_self_of_length_eq w k hlen]
  rw [packLoop_eq_fold complement_to_bits complement_to_bits_lt w.reverse 0
    (fun b hb => hval b (List.mem_reverse.mp hb))
    (by simpa [List.length_reverse, hlen] using pow_four_le k h2)]
  rfl

lemma window_length_eq (seq : List Nat) (k i : Nat) (hik : i + k ≤ seq.length) :
    ((seq.drop i).take k).length = k := by
  simp only [List.length_take, List.length_drop]
  omega

lemma windowEmit_isSome_iff (seq : List Nat) (k : Nat) (c : Bool) (i : Nat)
    (h2 : k ≤ 32) (hik : i + k ≤ seq.length) :
    (windowEmit seq k c i).isSome = true ↔
      ∀ b ∈ (seq.drop i).take k, (nucleotide_to_bits b).isSome = true := by
  have hwlen := window_length_eq seq k i hik
  unfold windowEmit
  by_cases hall : ∀ b ∈ (seq.drop i).take k, (nucleotide_to_bits b).isSome = true
  · obtain ⟨f, hf⟩ := Option.isSome_iff_exists.mp
      ((encode_kmer_isSome_iff _ k h2 hwlen).mpr hall)
    rw [hf]
    cases c with
    | false => simpa using hall
    | true =>
      have hrcall : ∀ b ∈ (seq.drop i).take k,
          (complement_to_bits b).isSome = true := by
        intro b hb
        rw [complement_isSome_eq]
        exact hall b hb
      obtain ⟨r, hr⟩ := Option.isSome_iff_exists.mp
        ((encode_rc_isSome_iff _ k h2 hwlen).mpr hrcall)
      rw [hr]
      simpa using hall
  · have hnone : encode_kmer ((seq.drop i).take k) k = none := by
      cases hek : encode_kmer ((seq.drop i).take k) k with
      | none => rfl
      | some f =>
        exact absurd ((encode_kmer_isSome_iff _ k h2 hwlen).mp (by simp [hek]))
          hall
    rw [hnone]
    simpa using hall

/-! ## Claim theorems -/

/-- C1 counterexample.  The configuration value `k = 0` lies outside `[1,32]`
yet the program does not report a fatal configuration error: the run
succeeds and prints a histogram line, because main.rs line 124 only checks
`k > 32`. -/
theorem k_zero_accepted_counterexample :
    (0 < 1 ∨ 32 < 0)
    ∧ mainModel [recExample] 0 false none =
        Except.ok ["K-mer Frequency\tCount", "18\t1"] := by
  exact ⟨Or.inl (by decide), by rfl⟩

/-- C1 (amended).  Only `k > 32` is a fatal configuration error, detected
before any record is processed and producing no output; every `k ≤ 32`,
including `k = 0`, is accepted and the pipeline runs. -/
theorem k_check_semantics (records : List SeqRecord) (k : Nat)
    (canonical : Bool) (limit : Option Nat) :
    (32 < k → mainModel records k canonical limit = Except.error kSizeError)
    ∧ (k ≤ 32 →
        mainModel records k canonical limit =
          Except.ok (runPipeline records k canonical limit)) := by
  constructor <;> intro h
  · unfold mainModel
    rw [if_pos h]
  · unfold mainModel
    rw [if_neg (by omega)]

/-- Witness for the amended C1 at `k = 33` and `k = 5`. -/
theorem k_check_semantics_witness :
    mainModel [] 33 false none = Except.error kSizeError
    ∧ mainModel [] 5 false none = Except.ok (runPipeline [] 5 false none) :=
  ⟨(k_check_semantics [] 33 false none).1 (by decide),
   (k_check_semantics [] 5 false none).2 (by decide)⟩

/-- C2.  Running the pipeline on the single record `read1 ka:f:2` with
sequence `ACGTACGT`, `k = 4`, canonicalization disabled: the generated
k-mers are the encodings of ACGT, CGTA, GTAC, TACG, ACGT; the Count Table
maps ACGT to 4 and CGTA, GTAC, TACG to 2 (and nothing else); the Histogram
maps 2 to 3 and 4 to 1 (and nothing else); and the printed lines after the
header line are exactly `2\t3` then `4\t1`. -/
theorem example_run_acgtacgt :
    encode_kmer [65, 67, 71, 84] 4 = some 27
    ∧ encode_kmer [67, 71, 84, 65] 4 = some 108
    ∧ encode_kmer [71, 84, 65, 67] 4 = some 177
    ∧ encode_kmer [84, 65, 67, 71] 4 = some 198
    ∧ generate_encoded_kmers recExample.seq 4 false = [27, 108, 177, 198, 27]
    ∧ extract_abundance (headerOf recExample) = some 2
    ∧ lookupVal (buildTable [recExample] 4 false) 27 = some 4
    ∧ lookupVal (buildTable [recExample] 4 false) 108 = some 2
    ∧ lookupVal (buildTable [recExample] 4 false) 177 = some 2
    ∧ lookupVal (buildTable [recExample] 4 false) 198 = some 2
    ∧ (buildTable [recExample] 4 false).length = 4
    ∧ lookupVal
        (histogramOf ((buildTable [recExample] 4 false).map Prod.snd)) 2 =
        some 3
    ∧ lookupVal
        (histogramOf ((buildTable [recExample] 4 false).map Prod.snd)) 4 =
        some 1
    ∧ (histogramOf ((buildTable [recExample] 4 false).map Prod.snd)).length = 2
    ∧ runPipeline [recExample] 4 false none =
        ["K-mer Frequency\tCount", "2\t3", "4\t1"] := by
  decide

/-- C4. The base codec maps A/a to 0, C/c to 1, G/g to 2, T/t to 3 and every
other byte to `none`; the complement codec maps A/a to 3, C/c to 2, G/g to 1,
T/t to 0 and every other byte to `none`.  Both are pure functions of the
byte (they are plain Lean functions of `n`). -/
theorem codec_tables (n : Nat) :
    (nucleotide_to_bits n =
      if n = 65 ∨ n = 97 then some 0
      else if n = 67 ∨ n = 99 then some 1
      else if n = 71 ∨ n = 103 then some 2
      else if n = 84 ∨ n = 116 then some 3
      else none)
    ∧ (complement_to_bits n =
      if n = 65 ∨ n = 97 then some 3
      else if n = 67 ∨ n = 99 then some 2
      else if n = 71 ∨ n = 103 then some 1
      else if n = 84 ∨ n = 116 then some 0
      else none) := by
  refine ⟨?_, ?_⟩
  · unfold nucleotide_to_bits
    split <;> simp_all
  · unfold complement_to_bits
    split <;> simp_all

/-- C3.  With canonicalization enabled, for every window of length `k`
(`1 ≤ k ≤ 32`) whose bases are all A/C/G/T (case-insensitive): the forward
encoding exists, the reverse-complement encoding equals the spec-side value
that packs the complement 2-bit codes starting from the last base as the
most-significant bits, and the emitted k-mer is the unsigned minimum of the
two encodings. -/
theorem canonical_emission (w : List Nat) (k : Nat) (h1 : 1 ≤ k) (h2 : k ≤ 32)
    (hlen : w.length = k)
    (hval : w.all (fun b => (nucleotide_to_bits b).isSome) = true) :
    (encode_kmer w k).isSome = true
    ∧ encode_reverse_complement w k = some (rcSpecVal w)
    ∧ generate_encoded_kmers w k true =
        [min ((encode_kmer w k).getD 0) (rcSpecVal w)] := by
  have hval2 : ∀ b ∈ w, (nucleotide_to_bits b).isSome = true := by
    simpa [List.all_eq_true] using hval
  have hcval : ∀ b ∈ w, (complement_to_bits b).isSome = true := by
    intro b hb
    rw [complement_isSome_eq]
    exact hval2 b hb
  have hfsome : (encode_kmer w k).isSome = true :=
    (encode_kmer_isSome_iff w k h2 hlen).mpr hval2
  obtain ⟨f, hf⟩ := Option.isSome_iff_exists.mp hfsome
  have hrc := encode_rc_eq_spec w k h2 hlen hcval
  refine ⟨hfsome, hrc, ?_⟩
  have hemit : windowEmit w k true 0 =
      some (min ((encode_kmer w k).getD 0) (rcSpecVal w)) := by
    unfold windowEmit
    rw [List.drop_zero, take_self_of_length_eq w k hlen, hf, hrc]
    simp [hf]
  unfold generate_encoded_kmers
  rw [if_neg (by omega), hlen, Nat.sub_self]
  simp [List.range_succ, hemit]

/-- Witness for C3 at the window CGTA with `k = 4`. -/
theorem canonical_emission_witness :
    encode_reverse_complement [67, 71, 84, 65] 4 =
      some (rcSpecVal [67, 71, 84, 65])
    ∧ generate_encoded_kmers [67, 71, 84, 65] 4 true =
        [min ((encode_kmer [67, 71, 84, 65] 4).getD 0)
          (rcSpecVal [67, 71, 84, 65])] :=
  ⟨(canonical_emission [67, 71, 84, 65] 4 (by decide) (by decide) (by decide)
      (by decide)).2.1,
   (canonical_emission [67, 71, 84, 65] 4 (by decide) (by decide) (by decide)
      (by decide)).2.2⟩

/-- C6.  For every byte sequence, window length `k` in `[1,32]` and flag:
a sequence shorter than `k` yields `[]` (not an error); the generator is
exactly one optional emission per starting offset `0 .. len - k` in
left-to-right order, keeping precisely the windows whose emission exists;
and a window's emission exists exactly when all its bytes are A/C/G/T
(case-insensitive), so invalid windows are dropped and generation
continues. -/
theorem generator_window_semantics (seq : List Nat) (k : Nat) (c : Bool)
    (h1 : 1 ≤ k) (h2 : k ≤ 32) :
    (seq.length < k → generate_encoded_kmers seq k c = [])
    ∧ generate_encoded_kmers seq k c =
        (List.range (seq.length + 1 - k)).filterMap (windowEmit seq k c)
    ∧ ∀ i, i + k ≤ seq.length →
        ((windowEmit seq k c i).isSome = true ↔
          ((seq.drop i).take k).all
            (fun b => (nucleotide_to_bits b).isSome) = true) := by
  refine ⟨?_, ?_, ?_⟩
  · intro h
    unfold generate_encoded_kmers
    rw [if_pos h]
  · unfold generate_encoded_kmers
    by_cases hlen : seq.length < k
    · rw [if_pos hlen, show seq.length + 1 - k = 0 from by omega]
      rfl
    · rw [if_neg hlen, show seq.length - k + 1 = seq.length + 1 - k from by omega]
  · intro i hik
    rw [windowEmit_isSome_iff seq k c i h2 hik]
    simp [List.all_eq_true]

/-- Witness for C6 on ACGT with `k = 2`, plus the empty-output case. -/
theorem generator_window_semantics_witness :
    generate_encoded_kmers [65] 2 false = []
    ∧ generate_encoded_kmers [65, 67, 71, 84] 2 false =
        (List.range 3).filterMap (windowEmit [65, 67, 71, 84] 2 false)
    ∧ ((windowEmit [65, 67, 71, 84] 2 false 1).isSome = true ↔
        (([65, 67, 71, 84].drop 1).take 2).all
          (fun b => (nucleotide_to_bits b).isSome) = true) :=
  ⟨(generator_window_semantics [65] 2 false (by decide) (by decide)).1
      (by decide),
   (generator_window_semantics [65, 67, 71, 84] 2 false (by decide)
      (by decide)).2.1,
   (generator_window_semantics [65, 67, 71, 84] 2 false (by decide)
      (by decide)).2.2 1 (by decide)⟩

lemma findTag_eq_none (h : List Nat)
    (hno : ∀ i, tagAt (h.drop i) = false) : findTag h = none := by
  induction h with
  | nil => rfl
  | cons b rest ih =>
    have h0 : tagAt (b :: rest) = false := by simpa using hno 0
    unfold findTag
    rw [if_neg (by simp [h0])]
    exact ih fun i => by simpa using hno (i + 1)

lemma findTag_leftmost (h : List Nat) :
    ∀ i, tagAt (h.drop i) = true →
      (∀ j, j < i → tagAt (h.drop j) = false) →
      findTag h = some (digitRun (h.drop (i + 5))) := by
  induction h with
  | nil =>
    intro i hi _
    rw [List.drop_nil] at hi
    simp [tagAt, kafPrefixAt] at hi
  | cons b rest ih =>
    intro i hi hmin
    cases i with
    | zero =>
      rw [List.drop_zero] at hi
      unfold findTag
      rw [if_pos hi]
    | succ n =>
      have h0 : tagAt (b :: rest) = false := by
        simpa using hmin 0 (Nat.succ_pos n)
      unfold findTag
      rw [if_neg (by simp [h0])]
      have hi2 : tagAt (rest.drop n) = true := by
        simpa using hi
      have hmin2 : ∀ j, j < n → tagAt (rest.drop j) = false := by
        intro j hj
        simpa using hmin (j + 1) (by omega)
      rw [ih n hi2 hmin2]
      have hdr : (b :: rest).drop (n + 1 + 5) = rest.drop (n + 5) := by
        rw [show n + 1 + 5 = n + 5 + 1 from by omega]
        simp
      rw [hdr]

lemma no_tag_of_no_kaf (h : List Nat) :
    containsKaf h = false → ∀ i, tagAt (h.drop i) = false := by
  induction h with
  | nil =>
    intro _ i
    rw [List.drop_nil]
    decide
  | cons b rest ih =>
    intro hk i
    unfold containsKaf at hk
    rw [Bool.or_eq_false_iff] at hk
    obtain ⟨h1, h2⟩ := hk
    cases i with
    | zero =>
      rw [List.drop_zero]
      simp [tagAt, h1]
    | succ n =>
      simpa using ih h2 n

/-- C5 counterexample.  The header `ka:f:4294967296 ka:f:5` contains a tag
of the form `ka:f:<digits>` whose digit sequence parses as an unsigned
integer (the second one), yet `extract_abundance` returns `none`, because
the regex engine only considers the leftmost match, whose digits overflow
`u32`. -/
theorem overflow_first_tag_counterexample :
    anyParsableTag hdrTwoTags = true
    ∧ extract_abundance hdrTwoTags = none := by
  exact ⟨by decide, by decide⟩

/-- C5 (amended).  The header annotation parser is a pure total function
driven by the leftmost match: if no position of the header matches
`ka:f:<digit>`, it returns `none`; and if position `i` is the leftmost
matching position, it returns exactly the `u32` parse of the greedy digit
run following that occurrence (so a failed parse of that leftmost capture
yields `none`, regardless of any later tag). -/
theorem extract_abundance_leftmost (h : List Nat) :
    ((∀ i, tagAt (h.drop i) = false) → extract_abundance h = none)
    ∧ (∀ i, tagAt (h.drop i) = true →
        (∀ j, j < i → tagAt (h.drop j) = false) →
        extract_abundance h = parseU32 (digitRun (h.drop (i + 5)))) := by
  constructor
  · intro hno
    unfold extract_abundance
    rw [findTag_eq_none h hno]
  · intro i hi hmin
    unfold extract_abundance
    rw [findTag_leftmost h i hi hmin]

/-- Witness for the amended C5 on the header `xka:f:7`, whose leftmost (and
only) match is at position 1. -/
theorem extract_abundance_leftmost_witness :
    extract_abundance [120, 107, 97, 58, 102, 58, 55] =
      parseU32 (digitRun ([120, 107, 97, 58, 102, 58, 55].drop (1 + 5)))
    ∧ parseU32 (digitRun ([120, 107, 97, 58, 102, 58, 55].drop (1 + 5))) =
      some 7 :=
  ⟨(extract_abundance_leftmost [120, 107, 97, 58, 102, 58, 55]).2 1 (by decide)
      (fun j hj => by interval_cases j; decide),
   by decide⟩

/-- C7.  A record whose concatenated header (identifier, one space, then the
possibly empty description) nowhere contains the literal `ka:f:` leaves the
Count Table exactly as it was: processing it is the identity on the table. -/
theorem no_tag_frame (k : Nat) (c : Bool) (table : List (Nat × Nat))
    (r : SeqRecord) (hk : containsKaf (headerOf r) = false) :
    processRecord k c table r = table := by
  have hea : extract_abundance (headerOf r) = none := by
    unfold extract_abundance
    rw [findTag_eq_none _ (no_tag_of_no_kaf _ hk)]
  unfold processRecord
  rw [hea]

/-- Witness for C7 on the record `read1 abc` and a nonempty table. -/
theorem no_tag_frame_witness :
    processRecord 4 false [(5, 7)] recNoTag = [(5, 7)] :=
  no_tag_frame 4 false [(5, 7)] recNoTag (by decide)

/-- C10.  The abundance is parsed as a 32-bit unsigned integer: whenever the
leftmost `ka:f:` tag's digit capture denotes a value of `2 ^ 32` or more,
the parser returns `none` and the record leaves the Count Table unchanged;
parsed weights are accumulated in 64-bit arithmetic, so a per-k-mer total
can exceed `2 ^ 32 - 1` (two records tagged `ka:f:4294967295` over the same
k-mer reach 8589934590). -/
theorem abundance_u32_semantics :
    (∀ (h : List Nat) (ds : List Nat), findTag h = some ds →
        2 ^ 32 ≤ digitsToNat ds → extract_abundance h = none)
    ∧ (∀ (k : Nat) (c : Bool) (table : List (Nat × Nat)) (r : SeqRecord)
        (ds : List Nat), findTag (headerOf r) = some ds →
        2 ^ 32 ≤ digitsToNat ds → processRecord k c table r = table)
    ∧ buildTable [recBig, recBig] 4 false = [(27, 8589934590)]
    ∧ 2 ^ 32 - 1 < 8589934590 := by
  have hpart1 : ∀ (h : List Nat) (ds : List Nat), findTag h = some ds →
      2 ^ 32 ≤ digitsToNat ds → extract_abundance h = none := by
    intro h ds hft hge
    unfold extract_abundance
    rw [hft]
    show parseU32 ds = none
    unfold parseU32
    by_cases hemp : ds.isEmpty
    · rw [if_pos hemp]
    · rw [if_neg hemp, if_neg (by omega)]
  refine ⟨hpart1, ?_, by decide, by decide⟩
  intro k c table r ds hft hge
  unfold processRecord
  rw [hpart1 (headerOf r) ds hft hge]

/-- Witness for C10 on the overflowing header `ka:f:4294967296`. -/
theorem abundance_u32_semantics_witness :
    extract_abundance
      [107, 97, 58, 102, 58, 52, 50, 57, 52, 57, 54, 55, 50, 57, 54] = none
    ∧ processRecord 4 false [(1, 2)]
        ⟨[114],
         some [107, 97, 58, 102, 58, 52, 50, 57, 52, 57, 54, 55, 50, 57, 54],
         [65, 67, 71, 84]⟩ = [(1, 2)] :=
  ⟨abundance_u32_semantics.1
      [107, 97, 58, 102, 58, 52, 50, 57, 52, 57, 54, 55, 50, 57, 54]
      [52, 50, 57, 52, 57, 54, 55, 50, 57, 54] (by decide) (by decide),
   abundance_u32_semantics.2.1 4 false [(1, 2)]
      ⟨[114],
       some [107, 97, 58, 102, 58, 52, 50, 57, 52, 57, 54, 55, 50, 57, 54],
       [65, 67, 71, 84]⟩
      [52, 50, 57, 52, 57, 54, 55, 50, 57, 54] (by decide) (by decide)⟩

lemma histCountMass_cons (q : Nat × Nat) (rest : List (Nat × Nat)) :
    histCountMass (q :: rest) = q.2 + histCountMass rest := by
  simp [histCountMass]

lemma histFreqMass_cons (q : Nat × Nat) (rest : List (Nat × Nat)) :
    histFreqMass (q :: rest) = q.1 * q.2 + histFreqMass rest := by
  simp [histFreqMass]

lemma bumpHist_masses (hist : List (Nat × Nat)) (v : Nat)
    (hb : histCountMass hist + 1 < 2 ^ 64) :
    histCountMass (bumpHist hist v) = histCountMass hist + 1
    ∧ histFreqMass (bumpHist hist v) = histFreqMass hist + v := by
  induction hist with
  | nil =>
    constructor
    · simp [bumpHist, histCountMass]
    · simp [bumpHist, histFreqMass]
  | cons q rest ih =>
    obtain ⟨key, c⟩ := q
    rw [histCountMass_cons] at hb
    by_cases hk : key = v
    · subst hk
      have hcmod : (c + 1) % 2 ^ 64 = c + 1 := Nat.mod_eq_of_lt (by omega)
      simp only [bumpHist]
      rw [if_pos trivial, histCountMass_cons, histCountMass_cons,
        histFreqMass_cons, histFreqMass_cons, hcmod]
      constructor
      · omega
      · ring
    · obtain ⟨ih1, ih2⟩ := ih (by omega)
      simp only [bumpHist]
      rw [if_neg hk, histCountMass_cons, histCountMass_cons,
        histFreqMass_cons, histFreqMass_cons, ih1, ih2]
      constructor
      · omega
      · ring

lemma foldl_bumpHist_masses (vals : List Nat) :
    ∀ hist : List (Nat × Nat),
      histCountMass hist + vals.length < 2 ^ 64 →
      histCountMass (vals.foldl bumpHist hist) =
        histCountMass hist + vals.length
      ∧ histFreqMass (vals.foldl bumpHist hist) =
        histFreqMass hist + vals.sum := by
  induction vals with
  | nil => intro hist _; simp
  | cons v vs ih =>
    intro hist hb
    rw [List.length_cons] at hb
    rw [List.foldl_cons]
    obtain ⟨b1, b2⟩ := bumpHist_masses hist v (by omega)
    obtain ⟨i1, i2⟩ := ih (bumpHist hist v) (by rw [b1]; omega)
    rw [i1, i2, b1, b2, List.length_cons, List.sum_cons]
    constructor
    · omega
    · ring

/-- C8.  For every final Count Table (distinct k-mer keys, fewer than
`2 ^ 64` entries), the derived Histogram satisfies both conservation laws:
the sum of `frequency * count` over the histogram equals the sum of all
accumulated values of the table, and the sum of `count` over the histogram
equals the number of distinct k-mers (entries) of the table. -/
theorem histogram_conservation (table : List (Nat × Nat))
    (hkeys : (table.map Prod.fst).Nodup)
    (hsize : table.length < 2 ^ 64) :
    histFreqMass (histogramOf (table.map Prod.snd)) =
      (table.map Prod.snd).sum
    ∧ histCountMass (histogramOf (table.map Prod.snd)) = table.length := by
  have hlen : (table.map Prod.snd).length = table.length :=
    List.length_map table Prod.snd
  unfold histogramOf
  obtain ⟨h1, h2⟩ := foldl_bumpHist_masses (table.map Prod.snd) []
    (by
      rw [hlen]
      simpa [histCountMass] using hsize)
  rw [h1, h2, hlen]
  constructor
  · simp [histFreqMass]
  · simp [histCountMass]

/-- Witness for C8 on the Count Table of the worked example. -/
theorem histogram_conservation_witness :
    histFreqMass
        (histogramOf ([(27, 4), (108, 2), (177, 2), (198, 2)].map Prod.snd)) =
      ([(27, 4), (108, 2), (177, 2), (198, 2)].map Prod.snd).sum
    ∧ histCountMass
        (histogramOf ([(27, 4), (108, 2), (177, 2), (198, 2)].map Prod.snd)) =
      [(27, 4), (108, 2), (177, 2), (198, 2)].length :=
  histogram_conservation [(27, 4), (108, 2), (177, 2), (198, 2)]
    (by decide) (by decide)

lemma lexLe_fst_le (p q : Nat × Nat) (h : lexLe p q) : p.1 ≤ q.1 := by
  unfold lexLe at h
  omega

lemma takeWhile_eq_filter_of_sorted (bound : Nat) (l : List (Nat × Nat)) :
    List.Pairwise lexLe l →
      l.takeWhile (fun p => decide (p.1 ≤ bound)) =
        l.filter (fun p => decide (p.1 ≤ bound)) := by
  induction l with
  | nil => intro _; rfl
  | cons a rest ih =>
    intro hl
    rw [List.pairwise_cons] at hl
    obtain ⟨ha, hrest⟩ := hl
    by_cases hle : a.1 ≤ bound
    · simp [List.takeWhile_cons, List.filter_cons, hle, ih hrest]
    · have htail : rest.filter (fun p => decide (p.1 ≤ bound)) = [] := by
        rw [List.filter_eq_nil_iff]
        intro p hp
        have h1 : a.1 ≤ p.1 := lexLe_fst_le a p (ha p hp)
        simp only [decide_eq_true_eq]
        omega
      simp [List.takeWhile_cons, List.filter_cons, hle, htail]

lemma renderRows_semantics_of_nodup (hist : List (Nat × Nat))
    (hkeys : (hist.map Prod.fst).Nodup) :
    (∀ limit, List.Sorted (fun p q : Nat × Nat => p.1 < q.1)
        (renderRows hist limit))
    ∧ (renderRows hist none).Perm hist
    ∧ (∀ l, (renderRows hist (some l)).Perm
        (hist.filter (fun p => decide (p.1 ≤ l)))) := by
  have hsorted : List.Pairwise lexLe (List.insertionSort lexLe hist) :=
    List.sorted_insertionSort lexLe hist
  have hperm : (List.insertionSort lexLe hist).Perm hist :=
    List.perm_insertionSort lexLe hist
  have hnodup : ((List.insertionSort lexLe hist).map Prod.fst).Nodup :=
    (hperm.map Prod.fst).nodup_iff.mpr hkeys
  have hpnodup : List.Pairwise (fun p q : Nat × Nat => p.1 ≠ q.1)
      (List.insertionSort lexLe hist) :=
    (List.pairwise_map).mp hnodup
  have hstrict : List.Pairwise (fun p q : Nat × Nat => p.1 < q.1)
      (List.insertionSort lexLe hist) := by
    refine (hsorted.and hpnodup).imp ?_
    intro a b hab
    obtain ⟨hlex, hne⟩ := hab
    unfold lexLe at hlex
    omega
  refine ⟨?_, ?_, ?_⟩
  · intro limit
    cases limit with
    | none => exact hstrict
    | some l =>
      show List.Pairwise (fun p q : Nat × Nat => p.1 < q.1)
        ((List.insertionSort lexLe hist).takeWhile fun p => decide (p.1 ≤ l))
      exact hstrict.sublist (List.takeWhile_sublist _)
  · exact hperm
  · intro l
    show ((List.insertionSort lexLe hist).takeWhile
      (fun p => decide (p.1 ≤ l))).Perm
      (hist.filter (fun p => decide (p.1 ≤ l)))
    rw [takeWhile_eq_filter_of_sorted l (List.insertionSort lexLe hist) hsorted]
    exact hperm.filter (fun p => decide (p.1 ≤ l))

lemma bumpHist_keys (hist : List (Nat × Nat)) (v : Nat) :
    (bumpHist hist v).map Prod.fst =
      if v ∈ hist.map Prod.fst then hist.map Prod.fst
      else hist.map Prod.fst ++ [v] := by
  induction hist with
  | nil => simp [bumpHist]
  | cons q rest ih =>
    obtain ⟨key, c⟩ := q
    by_cases hk : key = v
    · subst hk
      simp only [bumpHist]
      rw [if_pos trivial]
      simp
    · simp only [bumpHist]
      rw [if_neg hk]
      by_cases hm : v ∈ rest.map Prod.fst
      · simp [ih, hm, hk]
      · simp only [List.map_cons, ih, if_neg hm]
        rw [if_neg (by
          simp only [List.mem_cons]
          push_neg
          exact ⟨fun he => hk he.symm, hm⟩)]
        simp

lemma foldl_bumpHist_keys_nodup (vals : List Nat) :
    ∀ hist : List (Nat × Nat), (hist.map Prod.fst).Nodup →
      ((vals.foldl bumpHist hist).map Prod.fst).Nodup := by
  induction vals with
  | nil => intro hist h; simpa using h
  | cons v vs ih =>
    intro hist h
    rw [List.foldl_cons]
    apply ih
    rw [bumpHist_keys]
    by_cases hm : v ∈ hist.map Prod.fst
    · rw [if_pos hm]
      exact h
    · rw [if_neg hm]
      exact List.Nodup.append h (List.nodup_singleton v)
        (by simpa [List.disjoint_singleton] using hm)

lemma histogramOf_keys_nodup (vals : List Nat) :
    ((histogramOf vals).map Prod.fst).Nodup :=
  foldl_bumpHist_keys_nodup vals [] (by simp)

/-- C9.  For every list of accumulated Count-Table values: the rendered rows
of the derived histogram are in strictly ascending frequency order (hence no
duplicate frequency); with no limit every histogram bucket is rendered (the
rows are a permutation of the histogram); and with limit `l` the rows are
exactly the buckets whose frequency is at most `l` (the early-terminating
`break` of the print loop is equivalent to filtering). -/
theorem render_rows_semantics (vals : List Nat) :
    (∀ limit, List.Sorted (fun p q : Nat × Nat => p.1 < q.1)
        (renderRows (histogramOf vals) limit))
    ∧ (renderRows (histogramOf vals) none).Perm (histogramOf vals)
    ∧ (∀ l, (renderRows (histogramOf vals) (some l)).Perm
        ((histogramOf vals).filter (fun p => decide (p.1 ≤ l)))) :=
  renderRows_semantics_of_nodup (histogramOf vals) (histogramOf_keys_nodup vals)
